import Mathlib

/-!
Verification of the contextual-amount extractor in `fin_logic.py`.

Strings are modelled as `List Char`.  Python's fallible operations
(`value[0]` on a possibly-empty string, `json.loads`) are modelled with
`Option`: `none` stands for the raised exception / parse failure.
The two regular expressions of the source are embedded as executable
matching functions that follow the backtracking behaviour of Python's
`re` engine on these particular patterns (alternatives tried in order,
greedy optional parts, scan positions advanced one character at a time
on failure and past each match on success).
-/

namespace FinLogic

/-- The left-brace character, written by code point. -/
def lbrace : Char := Char.ofNat 123

/-- The right-brace character, written by code point. -/
def rbrace : Char := Char.ofNat 125

/-! ## Value Normalizer: `clean_monetary_value` -/

/-- Python `str.replace` for a single-character pattern acts on each
character independently. -/
def rep (x y c : Char) : Char := if c = x then y else c

/-- `s.replace(error, correction)` for single characters. -/
def replaceAll (x y : Char) (cs : List Char) : List Char := cs.map (rep x y)

/-- The `corrections` dict of `clean_monetary_value`, in its iteration
order. -/
def corrections : List (Char × Char) :=
  [('O', '0'), ('o', '0'), ('l', '1'), ('I', '1'), ('Z', '2'),
   ('g', '9'), ('q', '9'), ('B', '8')]

/-- `clean_monetary_value`: keeps the first character (`value[0]`) and
applies every correction to the rest (`value[1:]`).  On the empty string
the Python code raises `IndexError` at `value[0]`; that is the `none`
case. -/
def clean_monetary_value : List Char → Option (List Char)
  | [] => none
  | s :: rest =>
      some (s :: corrections.foldl (fun acc p => replaceAll p.1 p.2 acc) rest)

/-- The confusion table of the source, as a single character function. -/
def fixChar (c : Char) : Char :=
  if c = 'O' then '0' else if c = 'o' then '0'
  else if c = 'l' then '1' else if c = 'I' then '1'
  else if c = 'Z' then '2' else if c = 'g' then '9'
  else if c = 'q' then '9' else if c = 'B' then '8' else c

lemma repChain (c : Char) :
    rep 'B' '8' (rep 'q' '9' (rep 'g' '9' (rep 'Z' '2' (rep 'I' '1'
      (rep 'l' '1' (rep 'o' '0' (rep 'O' '0' c))))))) = fixChar c := by
  by_cases h1 : c = 'O'; · subst h1; decide
  by_cases h2 : c = 'o'; · subst h2; decide
  by_cases h3 : c = 'l'; · subst h3; decide
  by_cases h4 : c = 'I'; · subst h4; decide
  by_cases h5 : c = 'Z'; · subst h5; decide
  by_cases h6 : c = 'g'; · subst h6; decide
  by_cases h7 : c = 'q'; · subst h7; decide
  by_cases h8 : c = 'B'; · subst h8; decide
  simp [rep, fixChar, h1, h2, h3, h4, h5, h6, h7, h8]

/-- The chained `replace` calls amount to mapping `fixChar` over the
numeric part. -/
lemma foldl_corrections (rest : List Char) :
    corrections.foldl (fun acc p => replaceAll p.1 p.2 acc) rest
      = rest.map fixChar := by
  show replaceAll 'B' '8' (replaceAll 'q' '9' (replaceAll 'g' '9' (replaceAll 'Z' '2'
    (replaceAll 'I' '1' (replaceAll 'l' '1' (replaceAll 'o' '0' (replaceAll 'O' '0' rest)))))))
      = rest.map fixChar
  simp only [replaceAll, List.map_map]
  exact List.map_congr_left fun c _ => by simpa [Function.comp] using repChain c

lemma clean_cons (c : Char) (rest : List Char) :
    clean_monetary_value (c :: rest) = some (c :: rest.map fixChar) := by
  simp [clean_monetary_value, foldl_corrections]

/-- Characters the confusion table rewrites. -/
def confusionChars : List Char := ['O', 'o', 'l', 'I', 'Z', 'g', 'q', 'B']

lemma fixChar_eq_self {c : Char} (h : c ∉ confusionChars) : fixChar c = c := by
  simp only [confusionChars, List.mem_cons, List.not_mem_nil, or_false] at h
  push_neg at h
  obtain ⟨h1, h2, h3, h4, h5, h6, h7, h8⟩ := h
  simp [fixChar, h1, h2, h3, h4, h5, h6, h7, h8]

lemma fixChar_idem (c : Char) : fixChar (fixChar c) = fixChar c := by
  by_cases h1 : c = 'O'; · subst h1; decide
  by_cases h2 : c = 'o'; · subst h2; decide
  by_cases h3 : c = 'l'; · subst h3; decide
  by_cases h4 : c = 'I'; · subst h4; decide
  by_cases h5 : c = 'Z'; · subst h5; decide
  by_cases h6 : c = 'g'; · subst h6; decide
  by_cases h7 : c = 'q'; · subst h7; decide
  by_cases h8 : c = 'B'; · subst h8; decide
  have hc : c ∉ confusionChars := by
    simp [confusionChars, h1, h2, h3, h4, h5, h6, h7, h8]
  rw [fixChar_eq_self hc, fixChar_eq_self hc]

lemma isDigit_not_confusion {c : Char} (h : c.isDigit) : c ∉ confusionChars := by
  intro hmem
  fin_cases hmem <;> simp_all [Char.isDigit]

/-- On the alphabet without `S`, `fixChar` lands in digits, comma or
period. -/
lemma fixChar_output {c : Char}
    (h : c.isDigit ∨ c ∈ [',', '.', 'O', 'o', 'l', 'I', 'Z', 'g', 'q', 'B']) :
    (fixChar c).isDigit ∨ fixChar c = ',' ∨ fixChar c = '.' := by
  rcases h with h | h
  · rw [fixChar_eq_self (isDigit_not_confusion h)]; exact Or.inl h
  · fin_cases h <;> simp [fixChar]

end FinLogic

namespace FinLogic

/-! ## Theorems for claims C3 and C10 -/

/-- **C3 (counterexample).**  The claim lets the characters after the
leading symbol range over the whole noisy-digit alphabet, which contains
`S`; but the confusion table has no entry for `S`, so the normalizer
leaves it in place and the output tail is not made of digits, commas and
periods only: `clean_monetary_value "$S" = "$S"`. -/
theorem clean_S_counterexample :
    clean_monetary_value ['$', 'S'] = some ['$', 'S'] ∧
      ¬('S'.isDigit ∨ 'S' = ',' ∨ 'S' = '.') ∧
      ('S'.isDigit ∨ 'S' ∈ [',', '.', 'O', 'o', 'l', 'I', 'S', 'Z', 'g', 'q', 'B']) := by
  refine ⟨?_, by decide, by decide⟩
  rw [clean_cons]; decide

/-- **C3 (amended).**  For a string made of one leading symbol character
followed by characters of the noisy-digit alphabet *without `S`*
(digits, comma, period, O, o, l, I, Z, g, q, B), the normalizer keeps
the first character, rewrites the tail exactly by the table
O,o to 0; l,I to 1; Z to 2; g,q to 9; B to 8, and every character after
the first in the output is a digit, a comma or a period. -/
theorem clean_monetary_value_spec (c0 : Char) (rest : List Char)
    (h : ∀ c ∈ rest,
      c.isDigit ∨ c ∈ [',', '.', 'O', 'o', 'l', 'I', 'Z', 'g', 'q', 'B']) :
    clean_monetary_value (c0 :: rest) = some (c0 :: rest.map fixChar) ∧
      (c0 :: rest.map fixChar).head? = some c0 ∧
      ∀ c ∈ (c0 :: rest.map fixChar).tail,
        c.isDigit ∨ c = ',' ∨ c = '.' := by
  refine ⟨clean_cons c0 rest, rfl, ?_⟩
  intro c hc
  simp only [List.tail_cons, List.mem_map] at hc
  obtain ⟨a, ha, rfl⟩ := hc
  exact fixChar_output (h a ha)

/-- Witness for `clean_monetary_value_spec`: the spec's own example,
`normalize "$1O2O" = "$1020"`. -/
theorem clean_monetary_value_spec_witness :
    clean_monetary_value ['$', '1', 'O', '2', 'O'] = some ['$', '1', '0', '2', '0'] := by
  have h := (clean_monetary_value_spec '$' ['1', 'O', '2', 'O'] (by decide)).1
  rw [h]; decide

/-- **C10.**  On every non-empty input the normalizer is idempotent,
preserves the length, and leaves every character outside the confusion
set O, o, l, I, Z, g, q, B unchanged at its position. -/
theorem clean_monetary_value_idem (s : List Char) (hs : s ≠ []) :
    ∃ out, clean_monetary_value s = some out ∧
      clean_monetary_value out = some out ∧
      out.length = s.length ∧
      ∀ i c, s.get? i = some c → c ∉ confusionChars → out.get? i = some c := by
  obtain ⟨c0, rest, rfl⟩ := List.exists_cons_of_ne_nil hs
  refine ⟨c0 :: rest.map fixChar, clean_cons c0 rest, ?_, by simp, ?_⟩
  · rw [clean_cons]
    congr 1
    rw [List.map_map]
    exact congrArg (c0 :: ·) (List.map_congr_left fun c _ => fixChar_idem c)
  · intro i c hget hc
    match i with
    | 0 => simpa using hget
    | Nat.succ j =>
      simp only [List.get?_cons_succ] at hget ⊢
      rw [List.get?_map, hget]
      simp [fixChar_eq_self hc]

/-- Witness for `clean_monetary_value_idem` at `"$1O2O"`. -/
theorem clean_monetary_value_idem_witness :
    ∃ out, clean_monetary_value ['$', '1', 'O', '2', 'O'] = some out ∧
      clean_monetary_value out = some out ∧
      out.length = (['$', '1', 'O', '2', 'O'] : List Char).length ∧
      ∀ i c, (['$', '1', 'O', '2', 'O'] : List Char).get? i = some c →
        c ∉ confusionChars → out.get? i = some c :=
  clean_monetary_value_idem ['$', '1', 'O', '2', 'O'] (by decide)

/-! ## The shared regular-expression alphabet -/

/-- The whitespace characters a Python `\s` accepts (ASCII range). -/
def pySpace (c : Char) : Bool :=
  c = ' ' || c = '\t' || c = '\n' || c = '\r' ||
    c = Char.ofNat 11 || c = Char.ofNat 12

/-- The currency-marker alternatives of both patterns, in the order the
alternation lists them. -/
def markers : List (List Char) :=
  [['$'], ['S'], ['€'], ['£'], ['₹'],
   ['I', 'N', 'R'], ['U', 'S', 'D'], ['E', 'U', 'R'], ['G', 'B', 'P']]

/-- Length of the marker alternative matching at the head of `cs`,
trying the alternatives in pattern order.  Their first characters are
pairwise distinct, so at most one can be a prefix of `cs`. -/
def markerLen (cs : List Char) : Option Nat :=
  markers.findSome? fun m => if m.isPrefixOf cs then some m.length else none

/-- The noisy-digit character class of the image-mode pattern. -/
def classChar (c : Char) : Bool :=
  c.isDigit || c = ',' || c = 'O' || c = 'o' || c = 'l' || c = 'I' ||
    c = 'S' || c = 'Z' || c = 'g' || c = 'q' || c = 'B' || c = '.'

lemma pySpace_not_classChar {c : Char} (h : pySpace c = true) :
    classChar c = false := by
  simp only [pySpace, Bool.or_eq_true, decide_eq_true_eq] at h
  rcases h with ((((h | h) | h) | h) | h) | h <;> subst h <;> decide

/-! ## Geometric Context Matcher: `extract_contextual_amounts` -/

/-- `re.fullmatch` of the image-mode pattern
`(marker)\s?([noisy-digit]+)`: mandatory currency marker, optional
single whitespace, then one or more noisy-digit characters, all of it
consuming the whole string.  When the greedy optional-whitespace branch
fails the engine retries without it.  `geomRest` is what must match
after the marker. -/
def geomRest (r : List Char) : Bool :=
  match r with
  | [] => false
  | c :: rest =>
    if pySpace c then
      (!rest.isEmpty && rest.all classChar) || (c :: rest).all classChar
    else
      (c :: rest).all classChar

def geomFullMatch (t : List Char) : Bool :=
  match markerLen t with
  | none => false
  | some k => geomRest (t.drop k)

lemma geomRest_cons (c : Char) (rest : List Char) :
    geomRest (c :: rest) =
      if pySpace c then
        (!rest.isEmpty && rest.all classChar) || (c :: rest).all classChar
      else (c :: rest).all classChar := rfl

/-- A corner point of an OCR bounding box. -/
structure Pt where
  x : ℚ
  y : ℚ
deriving DecidableEq

/-- A recognized fragment: the four bbox corner points as EasyOCR
returns them, the recognized text and the (unused) confidence. -/
structure Fragment where
  p0 : Pt
  p1 : Pt
  p2 : Pt
  p3 : Pt
  text : List Char
  conf : ℚ
deriving DecidableEq

/-- A contextual amount record: the cleaned amount and its context. -/
structure Record where
  amount : List Char
  context : List Char
deriving DecidableEq

/-- The sentinel context. -/
def unknown : List Char := ['U', 'n', 'k', 'n', 'o', 'w', 'n']

/-- `(bbox[0][1] + bbox[2][1]) / 2`, the vertical center. -/
def ayCenter (f : Fragment) : ℚ := (f.p0.y + f.p2.y) / 2

/-- `bbox[0][0]`, the left x-coordinate. -/
def axLeft (f : Fragment) : ℚ := f.p0.x

/-- `bbox[1][0]`, the right x-coordinate. -/
def oxRight (f : Fragment) : ℚ := f.p1.x

/-- The loop's qualification test:
`abs(ay_center - oy_center) < 20 and ox_right < ax_left`. -/
def qualifies (a o : Fragment) : Bool :=
  decide (|ayCenter a - ayCenter o| < 20) && decide (oxRight o < axLeft a)

/-- `distance = ax_left - ox_right`. -/
def dist (a o : Fragment) : ℚ := axLeft a - oxRight o

/-- One iteration of the candidate loop: `None`/`inf` is the state
before any qualifying candidate was seen; a strictly smaller distance
replaces the stored `(min_distance, best_candidate)` pair. -/
def geomStep (a : Fragment) (st : Option (ℚ × List Char)) (o : Fragment) :
    Option (ℚ × List Char) :=
  if qualifies a o then
    match st with
    | none => some (dist a o, o.text)
    | some (d, t) => if dist a o < d then some (dist a o, o.text) else some (d, t)
  else st

/-- The candidate loop: the text of the qualifying candidate at minimal
distance, `none` when no candidate qualifies. -/
def bestCandidate (a : Fragment) (others : List Fragment) : Option (List Char) :=
  (others.foldl (geomStep a) none).map Prod.snd

/-- The fragments whose text fullmatches the monetary pattern. -/
def amountFragments (frags : List Fragment) : List Fragment :=
  frags.filter fun f => geomFullMatch f.text

/-- All remaining fragments. -/
def contextCandidates (frags : List Fragment) : List Fragment :=
  frags.filter fun f => !geomFullMatch f.text

/-- `extract_contextual_amounts` on a list of recognized fragments
(the OCR call itself is the external collaborator).  `best_candidate or
"Unknown"` is Python truthiness: `None` and the empty string both fall
back to the sentinel. -/
def extract_contextual_amounts (frags : List Fragment) : List Record :=
  (amountFragments frags).map fun a =>
    { amount := (clean_monetary_value a.text).getD []
      context :=
        match bestCandidate a (contextCandidates frags) with
        | some t => if t.isEmpty then unknown else t
        | none => unknown }

/-! ## The marker alternation matches at most one alternative -/

lemma prefix_head {a : Char} {l t : List Char}
    (h : (a :: l).isPrefixOf t = true) : t.head? = some a := by
  cases t with
  | nil => simp [List.isPrefixOf] at h
  | cons b t' =>
    simp only [List.isPrefixOf, Bool.and_eq_true, beq_iff_eq] at h
    rw [h.1]
    rfl

lemma marker_unique {t m1 m2 : List Char} (h1 : m1 ∈ markers)
    (h2 : m2 ∈ markers) (p1 : m1.isPrefixOf t = true)
    (p2 : m2.isPrefixOf t = true) : m1 = m2 := by
  fin_cases h1 <;> fin_cases h2 <;>
    first
      | rfl
      | (exfalso
         have e1 := prefix_head p1
         have e2 := prefix_head p2
         rw [e1] at e2
         exact absurd (Option.some.inj e2) (by decide))

lemma markerLen_eq_of_isPrefixOf {t m : List Char} (hm : m ∈ markers)
    (hp : m.isPrefixOf t = true) : markerLen t = some m.length := by
  cases h : markerLen t with
  | none =>
    rw [markerLen, List.findSome?_eq_none_iff] at h
    have := h m hm
    rw [if_pos hp] at this
    exact absurd this (by simp)
  | some k =>
    obtain ⟨m2, hm2, hif⟩ := List.exists_of_findSome?_eq_some h
    by_cases hp2 : m2.isPrefixOf t = true
    · rw [if_pos hp2] at hif
      rw [marker_unique hm hm2 hp hp2]
      rw [Option.some.inj hif]
    · rw [if_neg hp2] at hif
      exact absurd hif (by simp)

lemma markerLen_some {t : List Char} {k : Nat} (h : markerLen t = some k) :
    ∃ m ∈ markers, m.isPrefixOf t = true ∧ m.length = k := by
  obtain ⟨m, hm, hif⟩ := List.exists_of_findSome?_eq_some h
  by_cases hp : m.isPrefixOf t = true
  · exact ⟨m, hm, hp, by rw [if_pos hp] at hif; exact Option.some.inj hif⟩
  · rw [if_neg hp] at hif
    exact absurd hif (by simp)

/-- The spec-side grammar for an Amount Fragment, amended so that the
currency marker is mandatory: the text is a marker, then optionally one
whitespace character, then a non-empty run of noisy-digit characters,
with nothing after it. -/
def specAmount (t : List Char) : Prop :=
  ∃ m ∈ markers, m.isPrefixOf t = true ∧
    ((t.drop m.length ≠ [] ∧ ∀ c ∈ t.drop m.length, classChar c = true) ∨
     (∃ c r', t.drop m.length = c :: r' ∧ pySpace c = true ∧ r' ≠ [] ∧
        ∀ x ∈ r', classChar x = true))

/-- **C2 (amended).**  A fragment is an Amount Fragment iff its whole
text is a *mandatory* currency marker from the set $ S € £ ₹ INR USD
EUR GBP, optionally followed by one blank, then one or more
noisy-digit characters; a bare noisy-digit run with no marker is *not*
an Amount Fragment.  Matching fragments are classified as amounts and
every non-matching fragment becomes a Context Candidate. -/
theorem geom_classification :
    ∀ (t : List Char) (frags : List Fragment) (f : Fragment),
    (geomFullMatch t = true ↔ specAmount t) ∧
    (f ∈ frags →
      (geomFullMatch f.text = true → f ∈ amountFragments frags) ∧
      (geomFullMatch f.text = false → f ∈ contextCandidates frags)) := by
  intro t frags f
  have hunfold : ∀ k, markerLen t = some k → geomFullMatch t = geomRest (t.drop k) := by
    intro k hk
    unfold geomFullMatch
    rw [hk]
  constructor
  · constructor
    · intro h
      cases hk : markerLen t with
      | none =>
        unfold geomFullMatch at h
        rw [hk] at h
        exact absurd h (by simp)
      | some k =>
        rw [hunfold k hk] at h
        obtain ⟨m, hm, hp, hlen⟩ := markerLen_some hk
        refine ⟨m, hm, hp, ?_⟩
        rw [hlen]
        cases hd : t.drop k with
        | nil => rw [hd] at h; exact absurd h (by simp [geomRest])
        | cons c rest =>
          rw [hd, geomRest_cons] at h
          by_cases hs : pySpace c = true
          · rw [if_pos hs] at h
            rcases Bool.or_eq_true_iff.mp h with h2 | h2
            · rw [Bool.and_eq_true] at h2
              refine Or.inr ⟨c, rest, rfl, hs, ?_, ?_⟩
              · intro hrest
                rw [hrest] at h2
                exact absurd h2.1 (by simp)
              · intro x hx
                exact List.all_eq_true.mp h2.2 x hx
            · have hc := List.all_eq_true.mp h2 c (by simp)
              rw [pySpace_not_classChar hs] at hc
              exact absurd hc (by simp)
          · rw [if_neg hs] at h
            exact Or.inl ⟨by simp, fun c2 hc2 => List.all_eq_true.mp h c2 hc2⟩
    · intro h
      obtain ⟨m, hm, hp, hrest⟩ := h
      rw [hunfold m.length (markerLen_eq_of_isPrefixOf hm hp)]
      rcases hrest with ⟨hne, hall⟩ | ⟨c, r', heq, hs, hne, hall⟩
      · cases hd : t.drop m.length with
        | nil => exact absurd hd hne
        | cons c rest =>
          rw [hd] at hall
          have hcall : (c :: rest).all classChar = true :=
            List.all_eq_true.mpr hall
          rw [geomRest_cons]
          by_cases hs : pySpace c = true
          · rw [if_pos hs]
            exact Bool.or_eq_true_iff.mpr (Or.inr hcall)
          · rw [if_neg hs]
            exact hcall
      · rw [heq, geomRest_cons, if_pos hs]
        refine Bool.or_eq_true_iff.mpr (Or.inl ?_)
        rw [Bool.and_eq_true]
        exact ⟨by simpa using hne, List.all_eq_true.mpr hall⟩
  · intro hf
    constructor
    · intro h
      rw [amountFragments, List.mem_filter]
      exact ⟨hf, h⟩
    · intro h
      rw [contextCandidates, List.mem_filter]
      exact ⟨hf, by rw [h]; rfl⟩

/-- A fragment whose text is the bare digit run `123`, for the
counterexample to C2 as frozen. -/
def bareDigitsFragment : Fragment :=
  ⟨⟨0, 0⟩, ⟨10, 0⟩, ⟨10, 10⟩, ⟨0, 10⟩, ['1', '2', '3'], 1⟩

/-- **C2 (counterexample).**  The claim says a fragment whose text is a
noisy-digit run with no currency marker is classified as an Amount
Fragment; but the image-mode pattern's marker group is not optional, so
the fragment with text `123` does not fullmatch, produces no record,
and lands among the Context Candidates instead. -/
theorem geom_marker_not_optional :
    geomFullMatch ['1', '2', '3'] = false ∧
    amountFragments [bareDigitsFragment] = [] ∧
    contextCandidates [bareDigitsFragment] = [bareDigitsFragment] ∧
    extract_contextual_amounts [bareDigitsFragment] = [] := by
  have h : geomFullMatch bareDigitsFragment.text = false := by decide
  refine ⟨by decide, ?_, ?_, ?_⟩
  · simp [amountFragments, List.filter_cons, h]
  · simp [contextCandidates, List.filter_cons, h]
  · simp [extract_contextual_amounts, amountFragments, List.filter_cons, h]

/-! ## The candidate loop selects the first distance minimizer -/

/-- The bare minimum-tracking step, without the qualification test and
without the stored distance (which always equals the key of the stored
element). -/
def selStep {α : Type} (k : α → ℚ) (st : Option α) (o : α) : Option α :=
  match st with
  | none => some o
  | some b => if k o < k b then some o else some b

lemma foldl_selStep_ne_none {α : Type} (k : α → ℚ) :
    ∀ (l : List α) (b : α), l.foldl (selStep k) (some b) ≠ none := by
  intro l
  induction l with
  | nil => intro b h; exact absurd h (by simp)
  | cons x l ih =>
    intro b
    show l.foldl (selStep k) (selStep k (some b) x) ≠ none
    rw [selStep]
    by_cases h : k x < k b
    · rw [if_pos h]; exact ih x
    · rw [if_neg h]; exact ih b

/-- Starting the loop from a stored element is the same as starting
from nothing and comparing with that element at the end. -/
lemma foldl_selStep_some {α : Type} (k : α → ℚ) :
    ∀ (l : List α) (x : α),
      (l.foldl (selStep k) none = none → l.foldl (selStep k) (some x) = some x) ∧
      (∀ y, l.foldl (selStep k) none = some y →
        l.foldl (selStep k) (some x) = if k y < k x then some y else some x) := by
  intro l
  induction l with
  | nil =>
    intro x
    exact ⟨fun _ => rfl, fun y h => absurd h (by simp)⟩
  | cons z l ih =>
    intro x
    have hz : (z :: l).foldl (selStep k) none = l.foldl (selStep k) (some z) := rfl
    have step : (z :: l).foldl (selStep k) (some x)
        = if k z < k x then l.foldl (selStep k) (some z)
          else l.foldl (selStep k) (some x) := by
      show l.foldl (selStep k) (selStep k (some x) z) = _
      rw [selStep]
      by_cases h : k z < k x
      · rw [if_pos h, if_pos h]
      · rw [if_neg h, if_neg h]
    constructor
    · intro h
      rw [hz] at h
      exact absurd h (foldl_selStep_ne_none k l z)
    · intro y h
      rw [hz] at h
      rw [step]
      cases hw : l.foldl (selStep k) none with
      | none =>
        have hy : y = z := by
          have := ((ih z).1 hw).symm.trans h
          exact (Option.some.inj this).symm
        subst hy
        by_cases h1 : k y < k x
        · rw [if_pos h1, if_pos h1]
          exact (ih y).1 hw
        · rw [if_neg h1, if_neg h1]
          exact (ih x).1 hw
      | some w =>
        by_cases h2 : k w < k z
        · have hy : y = w := by
            have := ((ih z).2 w hw).symm.trans h
            rw [if_pos h2] at this
            exact (Option.some.inj this).symm
          subst hy
          by_cases h1 : k z < k x
          · rw [if_pos h1, (ih z).2 y hw, if_pos h2, if_pos (lt_trans h2 h1)]
          · rw [if_neg h1, (ih x).2 y hw]
        · have hy : y = z := by
            have := ((ih z).2 w hw).symm.trans h
            rw [if_neg h2] at this
            exact (Option.some.inj this).symm
          subst hy
          by_cases h1 : k y < k x
          · rw [if_pos h1, (ih y).2 w hw, if_neg h2, if_pos h1]
          · rw [if_neg h1, (ih x).2 w hw, if_neg (by intro hwx; exact h1 (lt_of_le_of_lt (le_of_not_lt h2) hwx)), if_neg h1]

/-- A `find?` with a stronger predicate lands on the same element when
that element still satisfies the stronger predicate. -/
lemma find?_transfer {α : Type} {p q : α → Bool} :
    ∀ {l : List α} {y : α}, l.find? p = some y → q y = true →
      (∀ o, q o = true → p o = true) → l.find? q = some y := by
  intro l
  induction l with
  | nil => intro y h; exact absurd h (by simp)
  | cons z l ih =>
    intro y hfind hq himp
    by_cases hz : p z = true
    · rw [List.find?_cons_of_pos l hz] at hfind
      obtain rfl := Option.some.inj hfind
      rw [List.find?_cons_of_pos l hq]
    · rw [List.find?_cons_of_neg l (by simp [hz])] at hfind
      have hqz : ¬ q z = true := fun hqz => hz (himp z hqz)
      rw [List.find?_cons_of_neg l (by simp [hqz])]
      exact ih hfind hq himp

/-- The strict-improvement fold computes the first element attaining
the minimal key: the first element whose key is less than or equal to
every key in the list. -/
lemma foldl_selStep_eq_find? {α : Type} (k : α → ℚ) :
    ∀ l : List α,
      l.foldl (selStep k) none =
        l.find? fun o => l.all fun o2 => decide (k o ≤ k o2) := by
  intro l
  induction l with
  | nil => rfl
  | cons x xs ih =>
    have hx : (x :: xs).foldl (selStep k) none = xs.foldl (selStep k) (some x) := rfl
    cases hw : xs.foldl (selStep k) none with
    | none =>
      have hnil : xs = [] := by
        cases xs with
        | nil => rfl
        | cons z t =>
          exact absurd hw (by rw [show (z :: t).foldl (selStep k) none
            = t.foldl (selStep k) (some z) from rfl]; exact foldl_selStep_ne_none k t z)
      subst hnil
      rw [hx, (foldl_selStep_some k [] x).1 hw]
      simp
    | some y =>
      rw [hx, (foldl_selStep_some k xs x).2 y hw]
      rw [hw] at ih
      have hy_mem : y ∈ xs := List.mem_of_find?_eq_some ih.symm
      have hy_pred := List.find?_some ih.symm
      have hmin : ∀ o2 ∈ xs, k y ≤ k o2 := by
        intro o2 ho2
        have := List.all_eq_true.mp hy_pred o2 ho2
        exact of_decide_eq_true this
      by_cases hxy : k y < k x
      · rw [if_pos hxy]
        have hnotx : ¬ ((x :: xs).all fun o2 => decide (k x ≤ k o2)) = true := by
          rw [List.all_eq_true]
          intro hall
          have := of_decide_eq_true (hall y (by simp [hy_mem]))
          linarith
        rw [List.find?_cons_of_neg xs (by simpa using hnotx)]
        refine (find?_transfer ih.symm ?_ ?_).symm
        · rw [List.all_eq_true]
          intro o2 ho2
          rcases List.mem_cons.mp ho2 with rfl | ho2
          · exact decide_eq_true (le_of_lt hxy)
          · exact decide_eq_true (hmin o2 ho2)
        · intro o hall
          rw [List.all_eq_true] at hall ⊢
          intro o2 ho2
          exact hall o2 (List.mem_cons_of_mem x ho2)
      · rw [if_neg hxy]
        have hx_pred : ((x :: xs).all fun o2 => decide (k x ≤ k o2)) = true := by
          rw [List.all_eq_true]
          intro o2 ho2
          rcases List.mem_cons.mp ho2 with rfl | ho2
          · exact decide_eq_true le_rfl
          · exact decide_eq_true (le_trans (le_of_not_lt hxy) (hmin o2 ho2))
        rw [List.find?_cons_of_pos xs hx_pred]

lemma geomStep_qual_none {a o : Fragment} (hq : qualifies a o = true) :
    geomStep a none o = some (dist a o, o.text) := by
  unfold geomStep
  rw [if_pos hq]

lemma geomStep_qual_some {a o : Fragment} (hq : qualifies a o = true)
    (d : ℚ) (t : List Char) :
    geomStep a (some (d, t)) o =
      if dist a o < d then some (dist a o, o.text) else some (d, t) := by
  unfold geomStep
  rw [if_pos hq]

lemma geomStep_skip {a o : Fragment} (hq : qualifies a o = false)
    (st : Option (ℚ × List Char)) : geomStep a st o = st := by
  unfold geomStep
  simp [hq]

/-- The source loop over all fragments equals the bare loop over the
qualifying ones, with the stored distance dropped. -/
lemma geomStep_loop_corr (a : Fragment) :
    ∀ (l : List Fragment) (b : Option Fragment),
      l.foldl (geomStep a) (b.map fun f => (dist a f, f.text)) =
        ((l.filter fun o => qualifies a o).foldl (selStep (dist a)) b).map
          fun f => (dist a f, f.text) := by
  intro l
  induction l with
  | nil => intro b; rfl
  | cons o l ih =>
    intro b
    by_cases hq : qualifies a o = true
    · have hfilter : (o :: l).filter (fun o2 => qualifies a o2) =
          o :: l.filter fun o2 => qualifies a o2 := by
        rw [List.filter_cons, if_pos hq]
      rw [hfilter]
      cases b with
      | none =>
        show l.foldl (geomStep a) (geomStep a none o) = _
        rw [geomStep_qual_none hq]
        show l.foldl (geomStep a) ((some o).map fun f => (dist a f, f.text)) = _
        rw [ih (some o)]
        rfl
      | some f =>
        show l.foldl (geomStep a) (geomStep a (some (dist a f, f.text)) o) = _
        have hstep : geomStep a (some (dist a f, f.text)) o =
            (selStep (dist a) (some f) o).map fun f2 => (dist a f2, f2.text) := by
          rw [geomStep_qual_some hq, selStep]
          by_cases hd : dist a o < dist a f
          · rw [if_pos hd, if_pos hd]; rfl
          · rw [if_neg hd, if_neg hd]; rfl
        rw [hstep]
        cases hsel : selStep (dist a) (some f) o with
        | none => exact absurd hsel (by rw [selStep]; split_ifs <;> simp)
        | some f2 =>
          rw [show (some f2).map (fun f3 => (dist a f3, f3.text))
            = (some f2 : Option Fragment).map fun f3 => (dist a f3, f3.text) from rfl]
          rw [ih (some f2)]
          show _ = ((l.filter fun o2 => qualifies a o2).foldl (selStep (dist a))
            (selStep (dist a) (some f) o)).map fun f3 => (dist a f3, f3.text)
          rw [hsel]
    · have hfilter : (o :: l).filter (fun o2 => qualifies a o2) =
          l.filter fun o2 => qualifies a o2 := by
        rw [List.filter_cons, if_neg hq]
      rw [hfilter]
      show l.foldl (geomStep a) (geomStep a (b.map fun f => (dist a f, f.text)) o) = _
      rw [geomStep_skip (Bool.not_eq_true (qualifies a o) ▸ hq : qualifies a o = false)]
      exact ih b

/-- **C1.**  In the Geometric Context Matcher a candidate qualifies for
an amount iff the absolute difference of the two vertical centers is
strictly below 20 and the candidate's right x-coordinate is strictly
left of the amount's left x-coordinate; among the qualifying candidates
the selected one is the first (in input order) whose distance
`amount.left - candidate.right` is less than or equal to every
qualifying candidate's distance — that is, the minimizer with ties
broken in favor of the first-encountered candidate. -/
theorem geom_selection :
    ∀ (a : Fragment) (others : List Fragment),
    (∀ o : Fragment, qualifies a o = true ↔
        |ayCenter a - ayCenter o| < 20 ∧ oxRight o < axLeft a) ∧
    bestCandidate a others =
      ((others.filter fun o => qualifies a o).find? fun o =>
          (others.filter fun o2 => qualifies a o2).all fun o2 =>
            decide (dist a o ≤ dist a o2)).map Fragment.text := by
  intro a others
  constructor
  · intro o
    rw [qualifies, Bool.and_eq_true, decide_eq_true_eq, decide_eq_true_eq]
  · rw [bestCandidate]
    have h0 : (none : Option (ℚ × List Char))
        = (none : Option Fragment).map fun f => (dist a f, f.text) := rfl
    rw [h0, geomStep_loop_corr a others none, foldl_selStep_eq_find? (dist a)]
    cases hfind : (others.filter fun o => qualifies a o).find? fun o =>
        (others.filter fun o2 => qualifies a o2).all fun o2 =>
          decide (dist a o ≤ dist a o2) with
    | none => rfl
    | some y => rfl

/-! ## Sequential Context Matcher: `extract_contextual_amounts_from_text` -/

/-- The `[\d,]` class of the text-mode pattern's main run. -/
def isDigitComma (c : Char) : Bool := c.isDigit || c = ','

/-- Length matched by `[\d,]+(?:\.\d\x7b1,2\x7d)?%?` at the head of
`cs`: a greedy run of at least one digit or comma, then greedily a
period followed by two digits if available, else one, then an optional
percent sign. -/
def bodyLen (cs : List Char) : Option Nat :=
  let k := (cs.takeWhile isDigitComma).length
  if k = 0 then none
  else
    let decN : Nat :=
      match cs.drop k with
      | c :: d1 :: d2 :: _ =>
        if c = '.' && d1.isDigit then (if d2.isDigit then 3 else 2) else 0
      | [c, d1] => if c = '.' && d1.isDigit then 2 else 0
      | _ => 0
    let pctN : Nat :=
      match cs.drop (k + decN) with
      | c :: _ => if c = '%' then 1 else 0
      | [] => 0
    some (k + decN + pctN)

/-- Length matched at the head of `cs` by the full text-mode pattern
`(?:(?:marker)\s?)?[\d,]+(?:\.\d\x7b1,2\x7d)?%?`: the engine greedily
tries the optional marker with the optional whitespace, backtracks to
the marker without whitespace, and finally to no marker at all. -/
def matchLen (cs : List Char) : Option Nat :=
  match markerLen cs with
  | some k =>
    match cs.drop k with
    | c :: r' =>
      if pySpace c then
        match bodyLen r' with
        | some b => some (k + 1 + b)
        | none =>
          match bodyLen (c :: r') with
          | some b => some (k + b)
          | none => bodyLen cs
      else
        match bodyLen (c :: r') with
        | some b => some (k + b)
        | none => bodyLen cs
    | [] => bodyLen cs
  | none => bodyLen cs

lemma bodyLen_pos {cs : List Char} {b : Nat} (h : bodyLen cs = some b) :
    1 ≤ b := by
  rw [bodyLen] at h
  by_cases hk : (cs.takeWhile isDigitComma).length = 0
  · rw [if_pos hk] at h
    exact absurd h (by simp)
  · rw [if_neg hk] at h
    have := Option.some.inj h
    omega

lemma matchLen_pos {cs : List Char} {n : Nat} (h : matchLen cs = some n) :
    1 ≤ n := by
  unfold matchLen at h
  cases hk : markerLen cs with
  | none => simp only [hk] at h; exact bodyLen_pos h
  | some k =>
    simp only [hk] at h
    cases hd : cs.drop k with
    | nil => simp only [hd] at h; exact bodyLen_pos h
    | cons c r' =>
      simp only [hd] at h
      by_cases hs : pySpace c = true
      · simp only [hs, if_true] at h
        cases h1 : bodyLen r' with
        | some b =>
          simp only [h1, Option.some.injEq] at h
          omega
        | none =>
          simp only [h1] at h
          cases h2 : bodyLen (c :: r') with
          | some b =>
            simp only [h2, Option.some.injEq] at h
            have := bodyLen_pos h2
            omega
          | none => simp only [h2] at h; exact bodyLen_pos h
      · simp only [hs, if_false, Bool.false_eq_true] at h
        cases h2 : bodyLen (c :: r') with
        | some b =>
          simp only [h2, Option.some.injEq] at h
          have := bodyLen_pos h2
          omega
        | none => simp only [h2] at h; exact bodyLen_pos h

/-- The `re.finditer` scan: at each position try the pattern; on a
match, record `(position, matched text)` and resume after it, otherwise
advance one character.  The fuel argument makes the recursion
structural; `cs.length` steps always suffice because every step
consumes at least one character. -/
def findMatchesAux : Nat → List Char → Nat → List (Nat × List Char)
  | 0, _, _ => []
  | _ + 1, [], _ => []
  | fuel + 1, c :: rest, i =>
    match matchLen (c :: rest) with
    | some n => (i, (c :: rest).take n) :: findMatchesAux fuel ((c :: rest).drop n) (i + n)
    | none => findMatchesAux fuel rest (i + 1)

/-- All matches of the text-mode pattern with their start positions. -/
def findMatches (cs : List Char) : List (Nat × List Char) :=
  findMatchesAux cs.length cs 0

/-- `text_input[max(0, match.start() - 30) : match.start()]`. -/
def seqWindow (text : List Char) (start : Nat) : List Char :=
  let ws := (max 0 ((start : Int) - 30)).toNat
  (text.drop ws).take (start - ws)

/-- Python's `str.split()` with no separator: split on whitespace runs,
no empty words (which also makes the preceding `.strip()` a no-op). -/
def splitWsAux : List Char → List Char → List (List Char)
  | [], acc => if acc.isEmpty then [] else [acc.reverse]
  | c :: r, acc =>
    if pySpace c then
      if acc.isEmpty then splitWsAux r [] else acc.reverse :: splitWsAux r []
    else splitWsAux r (c :: acc)

def splitWs (cs : List Char) : List (List Char) := splitWsAux cs []

/-- `sep.join(words)` for a one-character separator. -/
def joinSep (sep : Char) : List (List Char) → List Char
  | [] => []
  | [w] => w
  | w :: ws => w ++ sep :: joinSep sep ws

/-- The context of a match starting at `start`:
`" ".join(words_in_window[-2:]) if words_in_window else "Unknown"`. -/
def seqContext (text : List Char) (start : Nat) : List Char :=
  let words := splitWs (seqWindow text start)
  if words.isEmpty then unknown
  else joinSep ' ' (words.drop (words.length - 2))

/-- `extract_contextual_amounts_from_text`. -/
def extract_contextual_amounts_from_text (text : List Char) : List Record :=
  (findMatches text).map fun p =>
    { amount := (clean_monetary_value p.2).getD []
      context := seqContext text p.1 }

/-! ## Every match is non-empty, every window word is non-empty -/

lemma findMatchesAux_mem_ne_nil :
    ∀ (fuel : Nat) (cs : List Char) (i : Nat) (p : Nat × List Char),
      p ∈ findMatchesAux fuel cs i → p.2 ≠ [] := by
  intro fuel
  induction fuel with
  | zero => intro cs i p hp; exact absurd hp (by simp [findMatchesAux])
  | succ fuel ih =>
    intro cs i p hp
    cases cs with
    | nil => exact absurd hp (by simp [findMatchesAux])
    | cons c rest =>
      rw [findMatchesAux] at hp
      cases hm : matchLen (c :: rest) with
      | some n =>
        rw [hm] at hp
        rcases List.mem_cons.mp hp with rfl | hp2
        · show (c :: rest).take n ≠ []
          obtain ⟨n', rfl⟩ := Nat.exists_eq_add_of_le (matchLen_pos hm)
          simp [List.take_cons]
        · exact ih _ _ p hp2
      | none =>
        rw [hm] at hp
        exact ih _ _ p hp

lemma findMatches_mem_ne_nil {cs : List Char} {p : Nat × List Char}
    (hp : p ∈ findMatches cs) : p.2 ≠ [] :=
  findMatchesAux_mem_ne_nil cs.length cs 0 p hp

lemma clean_isSome {t : List Char} (ht : t ≠ []) :
    (clean_monetary_value t).isSome := by
  obtain ⟨c, rest, rfl⟩ := List.exists_cons_of_ne_nil ht
  rw [clean_cons]
  rfl

lemma splitWsAux_mem_ne_nil :
    ∀ (cs acc : List Char) (w : List Char), w ∈ splitWsAux cs acc → w ≠ [] := by
  intro cs
  induction cs with
  | nil =>
    intro acc w hw
    rw [splitWsAux] at hw
    by_cases ha : acc.isEmpty
    · rw [if_pos ha] at hw
      exact absurd hw (by simp)
    · rw [if_neg ha] at hw
      rcases List.mem_cons.mp hw with rfl | h2
      · simpa [List.isEmpty_iff] using ha
      · exact absurd h2 (by simp)
  | cons c r ih =>
    intro acc w hw
    rw [splitWsAux] at hw
    by_cases hs : pySpace c = true
    · rw [if_pos hs] at hw
      by_cases ha : acc.isEmpty
      · rw [if_pos ha] at hw
        exact ih [] w hw
      · rw [if_neg ha] at hw
        rcases List.mem_cons.mp hw with rfl | h2
        · simpa [List.isEmpty_iff] using ha
        · exact ih [] w h2
    · rw [if_neg hs] at hw
      exact ih (c :: acc) w hw

lemma splitWs_mem_ne_nil {cs w : List Char} (hw : w ∈ splitWs cs) : w ≠ [] :=
  splitWsAux_mem_ne_nil cs [] w hw

lemma joinSep_ne_nil {sep : Char} {words : List (List Char)}
    (hne : words ≠ []) (hw : ∀ w ∈ words, w ≠ []) :
    joinSep sep words ≠ [] := by
  cases words with
  | nil => exact absurd rfl hne
  | cons w ws =>
    cases ws with
    | nil => exact hw w (by simp)
    | cons w2 ws2 => simp [joinSep]

lemma seqContext_ne_nil (text : List Char) (i : Nat) :
    seqContext text i ≠ [] := by
  rw [seqContext]
  by_cases h : (splitWs (seqWindow text i)).isEmpty
  · rw [if_pos h]
    decide
  · rw [if_neg h]
    have hne : splitWs (seqWindow text i) ≠ [] := by
      simpa [List.isEmpty_iff] using h
    refine joinSep_ne_nil ?_ ?_
    · rw [Ne, List.drop_eq_nil_iff_le]
      have : 0 < (splitWs (seqWindow text i)).length := List.length_pos.mpr hne
      omega
    · intro w hwmem
      exact splitWs_mem_ne_nil (List.mem_of_mem_drop hwmem)

/-! ## Theorems for claims C4 and C5 -/

/-- The sample input of the spec's end-to-end scenario. -/
def sampleText : List Char :=
  ("The total for the Full Check Up was S745.00. " ++
    "The final invoice TOTAL is S1,902.05.").data

/-- **C5.**  On the end-to-end sample text the Sequential Context
Matcher finds exactly two matches, in left-to-right order: `S745.00`
(context `Up was`, the last two tokens of its window) and `S1,902.05`
(context `TOTAL is`).  The third and fourth conjuncts check that both
contexts are exactly the join of the last two whitespace tokens of the
30-character window before each match. -/
theorem seq_sample_scenario :
    findMatches sampleText = [(36, "S745.00".data), (72, "S1,902.05".data)] ∧
    extract_contextual_amounts_from_text sampleText =
      [⟨"S745.00".data, "Up was".data⟩, ⟨"S1,902.05".data, "TOTAL is".data⟩] ∧
    "Up was".data =
      joinSep ' ' ((splitWs (seqWindow sampleText 36)).drop
        ((splitWs (seqWindow sampleText 36)).length - 2)) ∧
    "TOTAL is".data =
      joinSep ' ' ((splitWs (seqWindow sampleText 72)).drop
        ((splitWs (seqWindow sampleText 72)).length - 2)) := by
  refine ⟨by decide, by decide, by decide, by decide⟩

/-- **C4 (amended).**  For every match `(i, m)` of the text-mode scan,
the emitted record's context is computed from the window
`text[max(0, i - 30) : i]` (clamped at the string start — Nat
subtraction realizes the clamp): it is the sentinel `Unknown` when the
window has no whitespace-separated tokens, and otherwise the join of
the window's last two tokens (which may itself coincide with the
literal `Unknown`; the claim's `exactly when` fails, see the
counterexample). -/
theorem seq_window_context (text : List Char) (i : Nat) (m : List Char)
    (hmem : (i, m) ∈ findMatches text) :
    (Record.mk ((clean_monetary_value m).getD []) (seqContext text i))
        ∈ extract_contextual_amounts_from_text text ∧
    seqWindow text i = (text.take i).drop (i - 30) ∧
    (splitWs (seqWindow text i) = [] → seqContext text i = unknown) ∧
    (splitWs (seqWindow text i) ≠ [] →
      seqContext text i =
        joinSep ' ' ((splitWs (seqWindow text i)).drop
          ((splitWs (seqWindow text i)).length - 2))) := by
  refine ⟨?_, ?_, ?_, ?_⟩
  · exact List.mem_map_of_mem _ hmem
  · rw [seqWindow]
    have harith : (max 0 ((i : Int) - 30)).toNat = i - 30 := by omega
    rw [harith, List.drop_take]
  · intro h
    rw [seqContext, if_pos (by simpa [List.isEmpty_iff] using h)]
  · intro h
    rw [seqContext, if_neg (by simpa [List.isEmpty_iff] using h)]

/-- Witness for `seq_window_context`, at the sample text's first
match. -/
theorem seq_window_context_witness :
    (Record.mk ("S745.00".data) (seqContext sampleText 36))
        ∈ extract_contextual_amounts_from_text sampleText ∧
    seqWindow sampleText 36 = (sampleText.take 36).drop 6 := by
  have h := seq_window_context sampleText 36 ("S745.00".data) (by decide)
  refine ⟨?_, h.2.1⟩
  have ha : (clean_monetary_value ("S745.00".data)).getD [] = "S745.00".data := by decide
  rw [← ha]
  exact h.1

/-- **C4 (counterexample).**  The claim says the context is `Unknown`
*exactly when* the stripped window has no tokens; but on the input
`Unknown 5` the match `5` at index 8 has the one-token window
`Unknown `, and the join of its last two tokens is the literal
`Unknown`, indistinguishable from the sentinel. -/
theorem seq_unknown_sentinel_counterexample :
    extract_contextual_amounts_from_text ("Unknown 5").data =
      [⟨['5'], unknown⟩] ∧
    splitWs (seqWindow ("Unknown 5").data 8) =
      [['U', 'n', 'k', 'n', 'o', 'w', 'n']] ∧
    findMatches ("Unknown 5").data = [(8, ['5'])] := by
  refine ⟨by decide, by decide, by decide⟩

/-! ## Theorems for claims C8 and C9 -/

lemma geomFullMatch_ne_nil {t : List Char} (h : geomFullMatch t = true) :
    t ≠ [] := by
  intro hnil
  subst hnil
  exact absurd h (by decide)

lemma clean_getD {t : List Char} (ht : t ≠ []) :
    clean_monetary_value t = some ((clean_monetary_value t).getD []) ∧
      ((clean_monetary_value t).getD []).head? = t.head? := by
  obtain ⟨c, rest, rfl⟩ := List.exists_cons_of_ne_nil ht
  rw [clean_cons]
  exact ⟨rfl, rfl⟩

/-- **C8.**  Every record either matcher emits has an amount whose
first character is the matched fragment's first character and whose
remainder went through the normalizer (`amount` is exactly the
normalizer's output on the matched text), and a context that is never
the empty string: a non-empty label or the literal `Unknown`. -/
theorem record_invariants :
    ∀ (frags : List Fragment) (text : List Char),
    (∀ r ∈ extract_contextual_amounts frags, r.context ≠ [] ∧
      ∃ f ∈ frags, geomFullMatch f.text = true ∧
        clean_monetary_value f.text = some r.amount ∧
        r.amount.head? = f.text.head?) ∧
    (∀ r ∈ extract_contextual_amounts_from_text text, r.context ≠ [] ∧
      ∃ p ∈ findMatches text, clean_monetary_value p.2 = some r.amount ∧
        r.amount.head? = p.2.head?) := by
  intro frags text
  constructor
  · intro r hr
    simp only [extract_contextual_amounts, List.mem_map] at hr
    obtain ⟨a, ha, rfl⟩ := hr
    have hmem := List.mem_filter.mp ha
    have hne := geomFullMatch_ne_nil hmem.2
    constructor
    · show (match bestCandidate a (contextCandidates frags) with
        | some t => if t.isEmpty then unknown else t
        | none => unknown) ≠ []
      cases hbc : bestCandidate a (contextCandidates frags) with
      | none => decide
      | some t =>
        show (if t.isEmpty then unknown else t) ≠ []
        by_cases hte : t.isEmpty
        · rw [if_pos hte]; decide
        · rw [if_neg hte]; simpa [List.isEmpty_iff] using hte
    · exact ⟨a, hmem.1, hmem.2, (clean_getD hne).1, (clean_getD hne).2⟩
  · intro r hr
    simp only [extract_contextual_amounts_from_text, List.mem_map] at hr
    obtain ⟨p, hp, rfl⟩ := hr
    have hne := findMatches_mem_ne_nil hp
    exact ⟨seqContext_ne_nil text p.1,
      p, hp, (clean_getD hne).1, (clean_getD hne).2⟩

/-- **C9.**  The matching logic has no exception path: a fragment that
does not fullmatch is merely classified as a Context Candidate, and the
normalizer (whose only partiality is indexing the first character of an
empty string) is only ever reached with non-empty matched text, both in
image mode (a fullmatch always contains a marker) and in text mode (a
match always contains at least one digit or comma). -/
theorem no_exception_paths :
    ∀ (frags : List Fragment) (text : List Char),
    (∀ f ∈ frags, geomFullMatch f.text = true →
      f.text ≠ [] ∧ (clean_monetary_value f.text).isSome = true) ∧
    (∀ f ∈ frags, geomFullMatch f.text = false →
      f ∈ contextCandidates frags ∧ f ∉ amountFragments frags) ∧
    (∀ p ∈ findMatches text, p.2 ≠ [] ∧
      (clean_monetary_value p.2).isSome = true) := by
  intro frags text
  refine ⟨?_, ?_, ?_⟩
  · intro f _ h
    exact ⟨geomFullMatch_ne_nil h, clean_isSome (geomFullMatch_ne_nil h)⟩
  · intro f hf h
    constructor
    · rw [contextCandidates, List.mem_filter]
      exact ⟨hf, by rw [h]; rfl⟩
    · rw [amountFragments, List.mem_filter]
      intro hcontra
      rw [h] at hcontra
      exact absurd hcontra.2 (by simp)
  · intro p hp
    exact ⟨findMatches_mem_ne_nil hp, clean_isSome (findMatches_mem_ne_nil hp)⟩

/-! ## Extraction Orchestrator: `label_amounts_with_llm`

The LLM chain invocation and `json.loads` are external collaborators:
they enter the embedding as function parameters `llm` (raw prompt
content to raw response text) and `parse` (candidate JSON text to a
parsed document, `none` on a `JSONDecodeError`). -/

/-- The outcomes of `label_amounts_with_llm`: the
`status: no_amounts_found` dict with its reason, a parsed JSON
document, or the `status: error` dict carrying the reason and the
unmodified raw response. -/
inductive LabelResult (J : Type) where
  | noAmountsFound (reason : List Char)
  | ok (value : J)
  | invalidJson (reason : List Char) (rawOutput : List Char)
deriving DecidableEq

/-- Python `str.find`: index of the first occurrence. -/
def findFirst (c : Char) : List Char → Option Nat
  | [] => none
  | x :: r => if x = c then some 0 else (findFirst c r).map (· + 1)

/-- Python `str.rfind`: index of the last occurrence. -/
def findLast (c : Char) (s : List Char) : Option Nat :=
  (findFirst c s.reverse).map fun i => s.length - 1 - i

def invalidReason : List Char := ("LLM returned invalid JSON.").data

def noAmountsReason : List Char := ("OCR found no amounts to process.").data

/-- The defensive parse of the collaborator's raw response: cut from
the first brace to the last brace inclusive and parse; when either
brace is missing (Python `find`/`rfind` returning `-1`) or the parse
fails, return the `status: error` value with the raw response. -/
def labelStep {J : Type} (parse : List Char → Option J) (raw : List Char) :
    LabelResult J :=
  match findFirst lbrace raw, findLast rbrace raw with
  | some a, some b =>
    match parse ((raw.drop a).take (b + 1 - a)) with
    | some j => .ok j
    | none => .invalidJson invalidReason raw
  | _, _ => .invalidJson invalidReason raw

/-- One serialized line: `- Amount: <amount>, Nearby Text: <context>`. -/
def recordLine (r : Record) : List Char :=
  ("- Amount: ").data ++ r.amount ++ (", Nearby Text: ").data ++ r.context

/-- `label_amounts_with_llm`: short-circuit on an empty record list,
otherwise serialize the records, invoke the collaborator on the joined
lines and defensively parse its response. -/
def label_amounts_with_llm {J : Type} (llm : List Char → List Char)
    (parse : List Char → Option J) (contextual_data : List Record) :
    LabelResult J :=
  if contextual_data.isEmpty then .noAmountsFound noAmountsReason
  else labelStep parse (llm (joinSep '\n' (contextual_data.map recordLine)))

/-- **C6.**  On an empty record list the orchestrator reports
`no_amounts_found` and never invokes the collaborator (the outcome does
not depend on the `llm` parameter); on a non-empty list it hands the
collaborator exactly the newline-join of one
`- Amount: <amount>, Nearby Text: <context>` line per record. -/
theorem orchestrator_empty_shortcircuit :
    ∀ (J : Type) (llm llm2 : List Char → List Char)
      (parse : List Char → Option J) (records : List Record),
    (records = [] →
      label_amounts_with_llm llm parse records =
        LabelResult.noAmountsFound noAmountsReason ∧
      label_amounts_with_llm llm parse records =
        label_amounts_with_llm llm2 parse records) ∧
    (records ≠ [] →
      label_amounts_with_llm llm parse records =
        labelStep parse (llm (joinSep '\n' (records.map recordLine)))) := by
  intro J llm llm2 parse records
  constructor
  · intro h
    subst h
    exact ⟨rfl, rfl⟩
  · intro h
    rw [label_amounts_with_llm,
      if_neg (by simpa [List.isEmpty_iff] using h)]

/-- **C7.**  The orchestrator cuts the collaborator's raw response from
the first left brace to the last right brace inclusive and parses that
span; when the span parses it returns the parsed document, and when no
such span exists or parsing fails it returns the `status: error` value
`reason: LLM returned invalid JSON.` carrying the unmodified raw
response — in particular the response `not json at all` (which has no
braces) yields exactly that error value for every possible parser. -/
theorem orchestrator_defensive_parse :
    ∀ (J : Type) (parse : List Char → Option J) (raw : List Char),
    (∀ a b j, findFirst lbrace raw = some a → findLast rbrace raw = some b →
      parse ((raw.drop a).take (b + 1 - a)) = some j →
      labelStep parse raw = LabelResult.ok j) ∧
    (∀ a b, findFirst lbrace raw = some a → findLast rbrace raw = some b →
      parse ((raw.drop a).take (b + 1 - a)) = none →
      labelStep parse raw = LabelResult.invalidJson invalidReason raw) ∧
    ((findFirst lbrace raw = none ∨ findLast rbrace raw = none) →
      labelStep parse raw = LabelResult.invalidJson invalidReason raw) ∧
    labelStep parse ("not json at all").data =
      LabelResult.invalidJson invalidReason (("not json at all").data) := by
  intro J parse raw
  have hcase : ∀ a b, findFirst lbrace raw = some a →
      findLast rbrace raw = some b →
      labelStep parse raw =
        (match parse ((raw.drop a).take (b + 1 - a)) with
          | some j => LabelResult.ok j
          | none => LabelResult.invalidJson invalidReason raw) := by
    intro a b ha hb
    unfold labelStep
    rw [ha, hb]
  have hnone : (findFirst lbrace raw = none ∨ findLast rbrace raw = none) →
      labelStep parse raw = LabelResult.invalidJson invalidReason raw := by
    intro h
    unfold labelStep
    rcases h with h | h
    · rw [h]
    · rw [h]
      cases findFirst lbrace raw <;> rfl
  refine ⟨?_, ?_, hnone, ?_⟩
  · intro a b j ha hb hp
    rw [hcase a b ha hb, hp]
  · intro a b ha hb hp
    rw [hcase a b ha hb, hp]
  · have hf : findFirst lbrace (("not json at all").data) = none := by decide
    have h2 : ∀ (parse2 : List Char → Option J),
        labelStep parse2 (("not json at all").data) =
          LabelResult.invalidJson invalidReason (("not json at all").data) := by
      intro parse2
      unfold labelStep
      rw [hf]
    exact h2 parse

end FinLogic
